import Mathlib

/-! Variant-resolution engine of `VariantSelector.tsx` — shallow embedding.

This file embeds the product-variant resolution logic of
`src/components/products/VariantSelector.tsx` (the storefront variant
selector): the derived attribute index (`productAttributes`), the
availability/stock resolvers (`isValueAvailable`, `isValueOutOfStock`),
the smart-switch click handler (`handleSelect`), the variant-match
effect (modelled as `resolveMatch`) and the single-value auto-select
effect (modelled as `autoSelect`).

Modelling conventions:
* the React state `selectedAttributes : Record<string, string>` is an
  insertion-ordered association list `Selection := List (String × String)`
  with unique keys maintained by `setEntry` (JS object update semantics:
  an existing key keeps its position, a new key is appended);
* a JS string's truthiness test (`!selectedAttributes[attr.id]`) is
  `truthy : Option String → Bool` (absent or empty string is falsy);
* the repeated source idiom
  `v.product_variant_values.some(pvv => pvv.product_attribute_values.attribute_id === a && pvv.product_attribute_values.id === val)`
  is factored as `vhas`;
* all functions are total; none of the modelled code paths throw.
-/

namespace VariantSel

/-- Row of `product_attributes` as selected by the component's query. -/
structure ProductAttribute where
  id : String
  name : String
  icon_url : Option String
  sort_order : Option Int
deriving DecidableEq, Repr

/-- Row of `product_attribute_values` with its nested attribute. -/
structure ProductAttributeValue where
  id : String
  value : String
  attribute_id : String
  product_attributes : ProductAttribute
deriving DecidableEq, Repr

/-- Element of a variant's `product_variant_values` join list. -/
structure VariantAttributeValue where
  attribute_value_id : String
  product_attribute_values : ProductAttributeValue
deriving DecidableEq, Repr

/-- Row of `product_variants` as fetched by the component (price is kept
as an integer number of currency subunits; no claim depends on it). -/
structure ProductVariant where
  id : String
  product_id : String
  price : Int
  stock_quantity : Nat
  is_available : Bool
  image_urls : Option (List String)
  product_variant_values : List VariantAttributeValue
deriving DecidableEq, Repr

/-- `selectedAttributes`: map from attribute id to attribute-value id,
as an insertion-ordered association list. -/
abbrev Selection := List (String × String)

/-- JS truthiness of a possibly-absent string value. -/
def truthy : Option String → Bool
  | none => false
  | some s => !(s == "")

/-- `selectedAttributes[k]` (first entry with key `k`, if any). -/
def lookupSel (sel : Selection) (k : String) : Option String :=
  (sel.find? (fun p => p.1 == k)).map (fun p => p.2)

/-- JS object update `{...sel, [k]: v}` / `sel[k] = v`: overwrite in
place when the key exists, append otherwise. -/
def setEntry (sel : Selection) (k v : String) : Selection :=
  if sel.any (fun p => p.1 == k) then
    sel.map (fun p => if p.1 == k then (k, v) else p)
  else sel ++ [(k, v)]

/-- The source idiom: does variant `vr` carry the assignment
(attribute `attrId`, value `valId`)?  Mirrors
`vr.product_variant_values.some(pvv => pvv.product_attribute_values.attribute_id === attrId && pvv.product_attribute_values.id === valId)`. -/
def vhas (vr : ProductVariant) (attrId valId : String) : Bool :=
  vr.product_variant_values.any (fun pvv =>
    pvv.product_attribute_values.attribute_id == attrId &&
    pvv.product_attribute_values.id == valId)

/-- Proposition form of `vhas`. -/
def VHas (vr : ProductVariant) (attrId valId : String) : Prop :=
  ∃ pvv ∈ vr.product_variant_values,
    pvv.product_attribute_values.attribute_id = attrId ∧
    pvv.product_attribute_values.id = valId

instance (vr : ProductVariant) (a v : String) : Decidable (VHas vr a v) := by
  unfold VHas; infer_instance

/-- One entry of an attribute's derived `values` list
(`{ id, value, sort_order }`; the query omits per-value sort order, the
source stores the constant `0`). -/
structure ValEntry where
  id : String
  value : String
  sort_order : Int
deriving DecidableEq, Repr

/-- One entry of the derived attribute index
(`{ id, name, icon_url, sort_order, values }`). -/
structure AttrEntry where
  id : String
  name : String
  icon_url : Option String
  sort_order : Int
  values : List ValEntry
deriving DecidableEq, Repr

/-- Update of one map entry when the pvv's attribute is already keyed:
de-duplicate the value by value id, else append it
(`attrEntry.values.set(attrVal.id, ...)` guarded by `.has`). -/
def updEntry (pvv : VariantAttributeValue) (e : AttrEntry) : AttrEntry :=
  if e.id == pvv.product_attribute_values.product_attributes.id then
    if e.values.any (fun q => q.id == pvv.product_attribute_values.id) then e
    else { e with values := e.values ++
      [⟨pvv.product_attribute_values.id, pvv.product_attribute_values.value, 0⟩] }
  else e

/-- Fresh map entry for a first-seen attribute (metadata from this pvv,
`sort_order || 0`, one value). -/
def newEntry (pvv : VariantAttributeValue) : AttrEntry :=
  ⟨pvv.product_attribute_values.product_attributes.id,
   pvv.product_attribute_values.product_attributes.name,
   pvv.product_attribute_values.product_attributes.icon_url,
   (pvv.product_attribute_values.product_attributes.sort_order).getD 0,
   [⟨pvv.product_attribute_values.id, pvv.product_attribute_values.value, 0⟩]⟩

/-- Body of the `variants.forEach`/`product_variant_values.forEach` loop
building `attributesMap`: insert the pvv's attribute (keyed by attribute
id, metadata from first occurrence) and de-duplicate its value by value
id. -/
def addPVV (acc : List AttrEntry) (pvv : VariantAttributeValue) : List AttrEntry :=
  if acc.any (fun e => e.id == pvv.product_attribute_values.product_attributes.id) then
    acc.map (updEntry pvv)
  else
    acc ++ [newEntry pvv]

/-- The insertion-ordered `attributesMap` (a JS `Map` keyed by attribute
id) produced by the nested `forEach` loops. -/
def attributesList (variants : List ProductVariant) : List AttrEntry :=
  variants.foldl (fun acc vr => vr.product_variant_values.foldl addPVV acc) []

/-- `productAttributes`: the attribute map's entries sorted by
`sort_order` ascending (JS `Array.prototype.sort` is stable; modelled by
the stable `List.mergeSort`). -/
def productAttributes (variants : List ProductVariant) : List AttrEntry :=
  (attributesList variants).mergeSort (fun a b => decide (a.sort_order ≤ b.sort_order))

/-- All (attribute id, value id) pairs listed by the derived index. -/
def indexPairs (variants : List ProductVariant) : List (String × String) :=
  (productAttributes variants).flatMap (fun e => e.values.map (fun q => (e.id, q.id)))

/-- The index lists attribute `a` (by the id the builder keys on). -/
def AttrIn (l : List AttrEntry) (a : String) : Prop :=
  ∃ e ∈ l, e.id = a

instance (l : List AttrEntry) (a : String) : Decidable (AttrIn l a) := by
  unfold AttrIn; infer_instance

/-- The index lists value `w` under attribute `a`. -/
def PairIn (l : List AttrEntry) (a w : String) : Prop :=
  ∃ e ∈ l, e.id = a ∧ ∃ q ∈ e.values, q.id = w

instance (l : List AttrEntry) (a w : String) : Decidable (PairIn l a w) := by
  unfold PairIn; infer_instance

/-- Referential integrity of the fetched join rows: the value's
`attribute_id` foreign key agrees with the id of the nested
`product_attributes` record it joins to (the database guarantees this;
the two fields are distinct projections of the same relationship). -/
def WFCatalog (variants : List ProductVariant) : Prop :=
  ∀ vr ∈ variants, ∀ pvv ∈ vr.product_variant_values,
    pvv.product_attribute_values.attribute_id =
      pvv.product_attribute_values.product_attributes.id

instance (variants : List ProductVariant) : Decidable (WFCatalog variants) := by
  unfold WFCatalog; infer_instance

/-- Step 2 of `handleSelect`: does some variant carry every assignment
of the tentative selection? -/
def hasExactMatch (variants : List ProductVariant) (next : Selection) : Bool :=
  variants.any (fun vr => next.all (fun p => vhas vr p.1 p.2))

/-- Step 3 of `handleSelect`: the variants carrying the picked pair. -/
def candidatesFor (variants : List ProductVariant) (attributeId valueId : String) :
    List ProductVariant :=
  variants.filter (fun vr => vhas vr attributeId valueId)

/-- The candidate-scoring loop body: how many entries of the current
selection, other than the attribute being changed, the candidate
carries. -/
def matchScore (selectedAttributes : Selection) (attributeId : String)
    (c : ProductVariant) : Nat :=
  selectedAttributes.countP (fun p => !(p.1 == attributeId) && vhas c p.1 p.2)

/-- The `candidates.forEach` loop tracking `bestCandidate`/`maxMatches`
(`maxMatches` starts at `-1`, strict improvement replaces the best). -/
def bestLoop (sel : Selection) (attributeId : String) :
    List ProductVariant → ProductVariant → Int → ProductVariant
  | [], best, _ => best
  | c :: rest, best, maxMatches =>
    if maxMatches < (matchScore sel attributeId c : Int) then
      bestLoop sel attributeId rest c (matchScore sel attributeId c : Int)
    else
      bestLoop sel attributeId rest best maxMatches

/-- `newResolvedSelection`: rebuild a selection from the winning
candidate's own assignments (plain JS object assignment per pvv). -/
def selOfVariant (vr : ProductVariant) : Selection :=
  vr.product_variant_values.foldl
    (fun acc pvv =>
      setEntry acc pvv.product_attribute_values.attribute_id
        pvv.product_attribute_values.id) []

/-- `handleSelect(attributeId, valueId)`: exact-match merge, else smart
switch to the best candidate carrying the picked pair, else (defensive,
zero candidates) collapse to the picked pair alone. -/
def handleSelect (variants : List ProductVariant) (selectedAttributes : Selection)
    (attributeId valueId : String) : Selection :=
  let nextSelection := setEntry selectedAttributes attributeId valueId
  if hasExactMatch variants nextSelection then
    nextSelection
  else
    match candidatesFor variants attributeId valueId with
    | [] => [(attributeId, valueId)]
    | c0 :: cs =>
      selOfVariant (bestLoop selectedAttributes attributeId (c0 :: cs) c0 (-1))

/-- `isValueAvailable(attributeId, valueId)`: some variant carries the
target pair and agrees with every other currently selected attribute. -/
def isValueAvailable (variants : List ProductVariant) (selectedAttributes : Selection)
    (attributeId valueId : String) : Bool :=
  variants.any (fun vr =>
    vhas vr attributeId valueId &&
    selectedAttributes.all (fun p => p.1 == attributeId || vhas vr p.1 p.2))

/-- The `matchingVariants` filter of `isValueOutOfStock`: same
compatibility test as `isValueAvailable`. -/
def matchingVariants (variants : List ProductVariant) (selectedAttributes : Selection)
    (attributeId valueId : String) : List ProductVariant :=
  variants.filter (fun vr =>
    vhas vr attributeId valueId &&
    selectedAttributes.all (fun p => p.1 == attributeId || vhas vr p.1 p.2))

/-- `isValueOutOfStock(attributeId, valueId)`: false when no compatible
variant exists, else true iff every compatible variant has zero stock or
is flagged unavailable. -/
def isValueOutOfStock (variants : List ProductVariant) (selectedAttributes : Selection)
    (attributeId valueId : String) : Bool :=
  let matching := matchingVariants variants selectedAttributes attributeId valueId
  if matching.length == 0 then false
  else matching.all (fun vr => vr.stock_quantity == 0 || !vr.is_available)

/-- What the variant-match effect passes to `onVariantChange`. -/
structure MatchReport where
  variant : Option ProductVariant
  attrNames : String
  valueNames : String
deriving DecidableEq, Repr

/-- The match test of the variant-match effect: the variant carries the
selected value of every index attribute (`productAttributes.every(...)`;
an absent selection matches nothing). -/
def matchPred (pa : List AttrEntry) (selectedAttributes : Selection)
    (vr : ProductVariant) : Bool :=
  pa.all (fun attr =>
    match lookupSel selectedAttributes attr.id with
    | some selectedValueId => vhas vr attr.id selectedValueId
    | none => false)

/-- Per-attribute chosen-value display string of the match effect
(`a.values.find(v => v.id === valId)?.value || ''`). -/
def chosenValueName (selectedAttributes : Selection) (a : AttrEntry) : String :=
  match lookupSel selectedAttributes a.id with
  | some valId =>
    match a.values.find? (fun q => q.id == valId) with
    | some q => q.value
    | none => ""
  | none => ""

/-- The variant-match `useEffect`: `none` when the effect returns
without reporting (no variants / empty attribute index), otherwise the
`(variant?, attrNames, valueNames)` triple passed to the callback. -/
def resolveMatch (variants : List ProductVariant) (selectedAttributes : Selection) :
    Option MatchReport :=
  let pa := productAttributes variants
  if pa.length == 0 then none
  else if pa.all (fun attr => truthy (lookupSel selectedAttributes attr.id)) then
    match variants.find? (matchPred pa selectedAttributes) with
    | some matchedVariant =>
      some ⟨some matchedVariant,
        String.intercalate ", " (pa.map (fun a => a.name)),
        String.intercalate ", " (pa.map (chosenValueName selectedAttributes))⟩
    | none => some ⟨none, "", ""⟩
  else some ⟨none, "", ""⟩

/-- Body of the auto-select loop: when the attribute has exactly one
derived value and no truthy current selection, assign that sole value
(`newSelection[attr.id] = attr.values[0].id`). -/
def autoStep (newSelection : Selection) (attr : AttrEntry) : Selection :=
  if attr.values.length == 1 && !(truthy (lookupSel newSelection attr.id)) then
    match attr.values with
    | q :: _ => setEntry newSelection attr.id q.id
    | [] => newSelection
  else newSelection

/-- The auto-select `useEffect` (runs when `productAttributes` changes):
for each attribute with exactly one derived value and no truthy current
selection, assign that sole value. -/
def autoSelect (pa : List AttrEntry) (selectedAttributes : Selection) : Selection :=
  if pa.length > 0 then pa.foldl autoStep selectedAttributes
  else selectedAttributes

/-- Spec §3 invariant on a single variant: at most one value per
attribute ("a variant cannot simultaneously claim two values of the
same attribute"), read on value identity. -/
def UniqVariant (vr : ProductVariant) : Prop :=
  ∀ pvv ∈ vr.product_variant_values, ∀ pvv' ∈ vr.product_variant_values,
    pvv.product_attribute_values.attribute_id = pvv'.product_attribute_values.attribute_id →
    pvv.product_attribute_values.id = pvv'.product_attribute_values.id

instance (vr : ProductVariant) : Decidable (UniqVariant vr) := by
  unfold UniqVariant; infer_instance

/-- "The variant's assignment set equals the selection exactly": the
sets of (attribute id, value id) pairs coincide. -/
def AssignmentsEq (vr : ProductVariant) (sel : Selection) : Prop :=
  (∀ p ∈ sel, VHas vr p.1 p.2) ∧
  (∀ pvv ∈ vr.product_variant_values,
    (pvv.product_attribute_values.attribute_id, pvv.product_attribute_values.id) ∈ sel)

instance (vr : ProductVariant) (sel : Selection) : Decidable (AssignmentsEq vr sel) := by
  unfold AssignmentsEq VHas; infer_instance

/-- Modelled from the spec: the storefront page that mounts the
selector is not among the sources, so the component lifecycle is taken
from spec §3/§5 — "Selection is created empty on mount/product change"
and a catalog reload "must invalidate the previous Selection entirely".
A state pairs the loaded catalog with the current selection; on mount
and on product change the selection restarts empty and the auto-select
effect runs; a click comes from a rendered button, i.e. an (attribute,
value) pair listed by the derived index, and runs `handleSelect`. -/
inductive ReachableState : List ProductVariant → Selection → Prop
  | mount (variants : List ProductVariant) :
      ReachableState variants (autoSelect (productAttributes variants) [])
  | productChange (variants : List ProductVariant) (sel : Selection)
      (variants2 : List ProductVariant) :
      ReachableState variants sel →
      ReachableState variants2 (autoSelect (productAttributes variants2) [])
  | click (variants : List ProductVariant) (sel : Selection) (a v : String) :
      ReachableState variants sel →
      (∃ e ∈ productAttributes variants, e.id = a ∧ ∃ q ∈ e.values, q.id = v) →
      ReachableState variants (handleSelect variants sel a v)

/-- Functional form of the `bestCandidate`/`maxMatches` loop once the
running maximum equals the score of the running best: keep the earlier
element unless a strictly better one appears. -/
def firstMaxAux (f : ProductVariant → Nat) : List ProductVariant → ProductVariant → ProductVariant
  | [], best => best
  | c :: rest, best =>
    if f best < f c then firstMaxAux f rest c else firstMaxAux f rest best

/-! ## A small concrete catalog (used by witness instances)

Two attributes (Color ∈ {Red, Blue}, Size ∈ {S, M}) and three variants
(Red/S stock 2, Red/M stock 0, Blue/S stock 5) — the sparse-matrix
shape described in the spec. -/

def exColor : ProductAttribute := ⟨"color", "Color", none, some 1⟩

def exSize : ProductAttribute := ⟨"size", "Size", none, some 2⟩

def exRed : ProductAttributeValue := ⟨"red", "Red", "color", exColor⟩

def exBlue : ProductAttributeValue := ⟨"blue", "Blue", "color", exColor⟩

def exS : ProductAttributeValue := ⟨"s", "S", "size", exSize⟩

def exM : ProductAttributeValue := ⟨"m", "M", "size", exSize⟩

def exVariant (i : String) (stock : Nat) (vals : List ProductAttributeValue) :
    ProductVariant :=
  ⟨i, "p1", 100, stock, true, none, vals.map (fun q => ⟨q.id, q⟩)⟩

def exCatalog : List ProductVariant :=
  [exVariant "v1" 2 [exRed, exS], exVariant "v2" 0 [exRed, exM],
   exVariant "v3" 5 [exBlue, exS]]

/-- A degenerate catalog: one variant carrying no attribute values. -/
def exBareCatalog : List ProductVariant :=
  [⟨"v0", "p0", 100, 1, true, none, []⟩]

/-- A catalog whose derived index has exactly one value per attribute
(so the auto-select rule fires for both attributes). -/
def exSingleCatalog : List ProductVariant :=
  [exVariant "w1" 1 [exRed, exS]]

/-! ## Basic lemmas on the selection model -/

theorem vhas_iff (vr : ProductVariant) (a v : String) :
    vhas vr a v = true ↔ VHas vr a v := by
  simp [vhas, VHas, List.any_eq_true, Bool.and_eq_true, beq_iff_eq]

theorem mem_of_lookupSel {sel : Selection} {k w : String}
    (h : lookupSel sel k = some w) : (k, w) ∈ sel := by
  unfold lookupSel at h
  rcases Option.map_eq_some'.mp h with ⟨p, hfind, hw⟩
  have hm := List.mem_of_find?_eq_some hfind
  have hp := List.find?_some hfind
  simp only [beq_iff_eq] at hp
  have : p = (k, w) := by
    cases p; simp_all
  rwa [this] at hm

theorem lookupSel_of_nodup {sel : Selection} {k w : String}
    (hmem : (k, w) ∈ sel) (hnd : (sel.map Prod.fst).Nodup) :
    lookupSel sel k = some w := by
  induction sel with
  | nil => cases hmem
  | cons p rest ih =>
    simp only [List.map_cons, List.nodup_cons, List.mem_map] at hnd
    rcases List.mem_cons.mp hmem with h | h
    · subst h
      simp [lookupSel, List.find?]
    · have hk : ¬(p.1 == k) = true := by
        intro hb
        exact hnd.1 ⟨(k, w), h, by simpa using (beq_iff_eq.mp hb).symm⟩
      simp only [lookupSel, List.find?, hk]
      exact ih h hnd.2

theorem mem_setEntry {sel : Selection} {k v : String} {p : String × String}
    (h : p ∈ setEntry sel k v) : p ∈ sel ∨ p = (k, v) := by
  unfold setEntry at h
  by_cases hany : sel.any (fun q => q.1 == k) = true
  · rw [if_pos hany] at h
    rcases List.mem_map.mp h with ⟨q, hq, hfq⟩
    by_cases hk : (q.1 == k) = true
    · right; rw [if_pos hk] at hfq; exact hfq.symm
    · left; rw [if_neg hk] at hfq; exact hfq ▸ hq
  · rw [if_neg hany] at h
    rcases List.mem_append.mp h with h | h
    · exact Or.inl h
    · right; simpa using h

theorem lookupSel_setEntry_self (sel : Selection) (k v : String) :
    lookupSel (setEntry sel k v) k = some v := by
  unfold setEntry
  by_cases hany : sel.any (fun q => q.1 == k) = true
  · rw [if_pos hany]
    induction sel with
    | nil => simp at hany
    | cons p rest ih =>
      by_cases hk : (p.1 == k) = true
      · simp [lookupSel, List.find?, hk]
      · have hrest : rest.any (fun q => q.1 == k) = true := by
          simpa [hk] using hany
        simpa [lookupSel, List.find?, hk] using ih hrest
  · rw [if_neg hany]
    induction sel with
    | nil => simp [lookupSel, List.find?]
    | cons p rest ih =>
      have hk : ¬(p.1 == k) = true := by
        simp only [List.any_cons, Bool.or_eq_true, not_or] at hany
        exact hany.1
      have hrest : ¬rest.any (fun q => q.1 == k) = true := by
        simp only [List.any_cons, Bool.or_eq_true, not_or] at hany
        exact hany.2
      simp only [List.cons_append, lookupSel, List.find?, hk]
      exact ih hrest

theorem lookupSel_setEntry_ne (sel : Selection) (k v k' : String) (hne : k' ≠ k) :
    lookupSel (setEntry sel k v) k' = lookupSel sel k' := by
  unfold setEntry
  by_cases hany : sel.any (fun q => q.1 == k) = true
  · rw [if_pos hany]
    clear hany
    induction sel with
    | nil => rfl
    | cons p rest ih =>
      by_cases hk : (p.1 == k) = true
      · have h1 : ¬(k == k') = true := by simpa using fun h => hne h.symm
        have h2 : ¬(p.1 == k') = true := by
          have := beq_iff_eq.mp hk
          simpa [this] using fun h => hne h.symm
        simp only [List.map_cons, if_pos hk, lookupSel, List.find?, h1, h2]
        exact ih
      · simp only [List.map_cons, if_neg hk, lookupSel, List.find?]
        by_cases hk' : (p.1 == k') = true
        · simp [hk']
        · simp only [hk', Bool.false_eq_true, if_false]
          exact ih
  · rw [if_neg hany]
    induction sel with
    | nil =>
      have : ¬(k == k') = true := by simpa using fun h => hne h.symm
      simp [lookupSel, List.find?, this]
    | cons p rest ih =>
      have hrest : ¬rest.any (fun q => q.1 == k) = true := by
        simp only [List.any_cons, Bool.or_eq_true, not_or] at hany
        exact hany.2
      simp only [List.cons_append, lookupSel, List.find?]
      by_cases hk' : (p.1 == k') = true
      · simp [hk']
      · simp only [hk', Bool.false_eq_true, if_false]
        exact ih hrest

theorem keys_setEntry {sel : Selection} {k v : String} {p : String × String}
    (h : p ∈ setEntry sel k v) : p.1 ∈ sel.map Prod.fst ∨ p.1 = k := by
  rcases mem_setEntry h with h | h
  · exact Or.inl (List.mem_map.mpr ⟨p, h, rfl⟩)
  · right; rw [h]

theorem hasExactMatch_iff (variants : List ProductVariant) (next : Selection) :
    hasExactMatch variants next = true ↔
      ∃ vr ∈ variants, ∀ p ∈ next, VHas vr p.1 p.2 := by
  simp [hasExactMatch, List.any_eq_true, List.all_eq_true, vhas_iff]

theorem mem_candidatesFor {variants : List ProductVariant} {a v : String}
    {vr : ProductVariant} :
    vr ∈ candidatesFor variants a v ↔ vr ∈ variants ∧ VHas vr a v := by
  simp [candidatesFor, List.mem_filter, vhas_iff]

theorem mem_matchingVariants {variants : List ProductVariant} {sel : Selection}
    {a v : String} {vr : ProductVariant} :
    vr ∈ matchingVariants variants sel a v ↔
      vr ∈ variants ∧ VHas vr a v ∧ ∀ p ∈ sel, p.1 ≠ a → VHas vr p.1 p.2 := by
  simp only [matchingVariants, List.mem_filter, Bool.and_eq_true, List.all_eq_true,
    vhas_iff, Bool.or_eq_true, beq_iff_eq]
  constructor
  · rintro ⟨hvr, hT, hAll⟩
    exact ⟨hvr, hT, fun p hp hne => (hAll p hp).resolve_left hne⟩
  · rintro ⟨hvr, hT, hAll⟩
    refine ⟨hvr, ⟨hT, fun p hp => ?_⟩⟩
    by_cases h : p.1 = a
    · exact Or.inl h
    · exact Or.inr (hAll p hp h)

/-! ## Claim theorems: availability and stock resolvers -/

/-- C2: `isValueAvailable(a,v)` is true iff some variant carries (a,v)
and agrees with the current selection on every other attribute present
in it; in particular with an empty selection every pair carried by any
variant is selectable. -/
theorem claim_C2_selectability_soundness (variants : List ProductVariant)
    (sel : Selection) (a v : String) :
    (isValueAvailable variants sel a v = true ↔
      ∃ vr ∈ variants, VHas vr a v ∧ ∀ p ∈ sel, p.1 ≠ a → VHas vr p.1 p.2)
    ∧ (isValueAvailable variants [] a v = true ↔ ∃ vr ∈ variants, VHas vr a v) := by
  constructor
  · simp only [isValueAvailable, List.any_eq_true, Bool.and_eq_true, List.all_eq_true,
      vhas_iff, Bool.or_eq_true, beq_iff_eq]
    constructor
    · rintro ⟨vr, hvr, hT, hAll⟩
      exact ⟨vr, hvr, hT, fun p hp hne => (hAll p hp).resolve_left hne⟩
    · rintro ⟨vr, hvr, hT, hAll⟩
      refine ⟨vr, hvr, hT, fun p hp => ?_⟩
      by_cases h : p.1 = a
      · exact Or.inl h
      · exact Or.inr (hAll p hp h)
  · simp [isValueAvailable, List.any_eq_true, Bool.and_eq_true, vhas_iff]

/-- C4: `isValueOutOfStock(a,v)` is true iff the set of variants
carrying (a,v) and compatible with every other selected attribute is
non-empty and every member has zero stock or the availability flag
false; in particular it is false when no compatible variant exists. -/
theorem claim_C4_out_of_stock_precision (variants : List ProductVariant)
    (sel : Selection) (a v : String) :
    isValueOutOfStock variants sel a v = true ↔
      ((∃ vr ∈ variants, VHas vr a v ∧ ∀ p ∈ sel, p.1 ≠ a → VHas vr p.1 p.2) ∧
       ∀ vr ∈ variants,
         (VHas vr a v ∧ ∀ p ∈ sel, p.1 ≠ a → VHas vr p.1 p.2) →
         (vr.stock_quantity = 0 ∨ vr.is_available = false)) := by
  unfold isValueOutOfStock
  by_cases hemp : matchingVariants variants sel a v = []
  · rw [hemp]
    simp only [List.length_nil]
    constructor
    · intro h; simp at h
    · rintro ⟨⟨vr, hvr, hc⟩, -⟩
      have : vr ∈ matchingVariants variants sel a v :=
        mem_matchingVariants.mpr ⟨hvr, hc⟩
      rw [hemp] at this
      cases this
  · have hlen : ¬((matchingVariants variants sel a v).length == 0) = true := by
      simpa [List.length_eq_zero] using hemp
    rw [if_neg hlen]
    constructor
    · intro h
      obtain ⟨vr0, hvr0⟩ := List.exists_mem_of_ne_nil _ hemp
      obtain ⟨h1, h2⟩ := mem_matchingVariants.mp hvr0
      refine ⟨⟨vr0, h1, h2⟩, ?_⟩
      intro vr hvr hc
      have := (List.all_eq_true.mp h) vr (mem_matchingVariants.mpr ⟨hvr, hc⟩)
      simpa [Bool.or_eq_true, beq_iff_eq] using this
    · rintro ⟨-, hall⟩
      apply List.all_eq_true.mpr
      intro vr hvr
      have hc := mem_matchingVariants.mp hvr
      have := hall vr hc.1 hc.2
      simpa [Bool.or_eq_true, beq_iff_eq] using this

/-! ## The candidate-scoring loop -/

theorem bestLoop_eq_firstMaxAux (sel : Selection) (a : String)
    (l : List ProductVariant) : ∀ best : ProductVariant,
    bestLoop sel a l best (matchScore sel a best : Int) =
      firstMaxAux (matchScore sel a) l best := by
  induction l with
  | nil => intro best; rfl
  | cons c rest ih =>
    intro best
    by_cases h : matchScore sel a best < matchScore sel a c
    · have hi : (matchScore sel a best : Int) < (matchScore sel a c : Int) := by
        exact_mod_cast h
      simp only [bestLoop, firstMaxAux, if_pos hi, if_pos h]
      exact ih c
    · have hi : ¬(matchScore sel a best : Int) < (matchScore sel a c : Int) := by
        exact_mod_cast h
      simp only [bestLoop, firstMaxAux, if_neg hi, if_neg h]
      exact ih best

theorem bestLoop_init (sel : Selection) (a : String) (c0 : ProductVariant)
    (cs : List ProductVariant) :
    bestLoop sel a (c0 :: cs) c0 (-1) = firstMaxAux (matchScore sel a) cs c0 := by
  have h : (-1 : Int) < (matchScore sel a c0 : Int) := by omega
  simp only [bestLoop, if_pos h]
  exact bestLoop_eq_firstMaxAux sel a cs c0

theorem firstMaxAux_spec (f : ProductVariant → Nat) (l : List ProductVariant) :
    ∀ best : ProductVariant,
      (firstMaxAux f l best = best ∧ ∀ c ∈ l, f c ≤ f best) ∨
      (∃ l1 l2, l = l1 ++ firstMaxAux f l best :: l2 ∧
        f best < f (firstMaxAux f l best) ∧
        (∀ c ∈ l1, f c < f (firstMaxAux f l best)) ∧
        (∀ c ∈ l2, f c ≤ f (firstMaxAux f l best))) := by
  induction l with
  | nil => intro best; left; exact ⟨rfl, by simp⟩
  | cons c rest ih =>
    intro best
    by_cases h : f best < f c
    · have heq : firstMaxAux f (c :: rest) best = firstMaxAux f rest c := by
        simp [firstMaxAux, h]
      rw [heq]
      rcases ih c with ⟨hb, hle⟩ | ⟨l1, l2, hdec, hlt, hl1, hl2⟩
      · right
        refine ⟨[], rest, ?_, ?_, by simp, ?_⟩
        · rw [hb]; rfl
        · rw [hb]; exact h
        · intro x hx; rw [hb]; exact hle x hx
      · right
        refine ⟨c :: l1, l2, ?_, h.trans hlt, ?_, hl2⟩
        · conv_lhs => rw [hdec]
          rw [List.cons_append]
        · intro x hx
          rcases List.mem_cons.mp hx with hx | hx
          · rw [hx]; exact hlt
          · exact hl1 x hx
    · have heq : firstMaxAux f (c :: rest) best = firstMaxAux f rest best := by
        simp [firstMaxAux, h]
      rw [heq]
      rcases ih best with ⟨hb, hle⟩ | ⟨l1, l2, hdec, hlt, hl1, hl2⟩
      · left
        refine ⟨hb, ?_⟩
        intro x hx
        rcases List.mem_cons.mp hx with hx | hx
        · rw [hx]; omega
        · exact hle x hx
      · right
        refine ⟨c :: l1, l2, ?_, hlt, ?_, hl2⟩
        · conv_lhs => rw [hdec]
          rw [List.cons_append]
        · intro x hx
          rcases List.mem_cons.mp hx with hx | hx
          · rw [hx]; omega
          · exact hl1 x hx

theorem firstMaxAux_mem (f : ProductVariant → Nat) (l : List ProductVariant) :
    ∀ best : ProductVariant, firstMaxAux f l best ∈ best :: l := by
  induction l with
  | nil => intro best; simp [firstMaxAux]
  | cons c rest ih =>
    intro best
    by_cases h : f best < f c
    · have heq : firstMaxAux f (c :: rest) best = firstMaxAux f rest c := by
        simp [firstMaxAux, h]
      rw [heq]
      rcases List.mem_cons.mp (ih c) with hx | hx
      · rw [hx]; simp
      · simp [hx]
    · have heq : firstMaxAux f (c :: rest) best = firstMaxAux f rest best := by
        simp [firstMaxAux, h]
      rw [heq]
      rcases List.mem_cons.mp (ih best) with hx | hx
      · rw [hx]; simp
      · simp [hx]

theorem handleSelect_smart (variants : List ProductVariant) (sel : Selection)
    (a v : String) (hb : hasExactMatch variants (setEntry sel a v) = false)
    (c0 : ProductVariant) (cs : List ProductVariant)
    (hc : candidatesFor variants a v = c0 :: cs) :
    handleSelect variants sel a v =
      selOfVariant (firstMaxAux (matchScore sel a) cs c0) := by
  unfold handleSelect
  rw [hc]
  simp only [hb, Bool.false_eq_true, if_false]
  rw [bestLoop_init]

/-! ## The selection rebuilt from a variant's assignments -/

theorem mem_selOfVariant_fold (pvvs : List VariantAttributeValue) :
    ∀ (acc : Selection) (p : String × String),
      p ∈ pvvs.foldl (fun acc pvv =>
        setEntry acc pvv.product_attribute_values.attribute_id
          pvv.product_attribute_values.id) acc →
      p ∈ acc ∨ ∃ pvv ∈ pvvs,
        p = (pvv.product_attribute_values.attribute_id,
             pvv.product_attribute_values.id) := by
  induction pvvs with
  | nil => intro acc p hp; exact Or.inl hp
  | cons x rest ih =>
    intro acc p hp
    rcases ih _ p hp with hacc | ⟨pvv, hpvv, hpe⟩
    · rcases mem_setEntry hacc with h | h
      · exact Or.inl h
      · exact Or.inr ⟨x, List.mem_cons_self _ _, h⟩
    · exact Or.inr ⟨pvv, List.mem_cons_of_mem _ hpvv, hpe⟩

theorem mem_selOfVariant {vr : ProductVariant} {p : String × String}
    (hp : p ∈ selOfVariant vr) :
    ∃ pvv ∈ vr.product_variant_values,
      p = (pvv.product_attribute_values.attribute_id,
           pvv.product_attribute_values.id) := by
  rcases mem_selOfVariant_fold vr.product_variant_values [] p hp with h | h
  · cases h
  · exact h

theorem lookupSel_fold_of_uniq (k w : String) (pvvs : List VariantAttributeValue) :
    ∀ acc : Selection,
      (∀ pvv ∈ pvvs, pvv.product_attribute_values.attribute_id = k →
        pvv.product_attribute_values.id = w) →
      ((∃ pvv ∈ pvvs, pvv.product_attribute_values.attribute_id = k) ∨
        lookupSel acc k = some w) →
      lookupSel (pvvs.foldl (fun acc pvv =>
        setEntry acc pvv.product_attribute_values.attribute_id
          pvv.product_attribute_values.id) acc) k = some w := by
  induction pvvs with
  | nil =>
    intro acc _ hd
    rcases hd with ⟨pvv, hpvv, -⟩ | h
    · cases hpvv
    · exact h
  | cons x rest ih =>
    intro acc huniq hd
    simp only [List.foldl_cons]
    by_cases hxk : x.product_attribute_values.attribute_id = k
    · have hxw : x.product_attribute_values.id = w :=
        huniq x (List.mem_cons_self _ _) hxk
      apply ih _ (fun pvv hpvv => huniq pvv (List.mem_cons_of_mem _ hpvv))
      right
      rw [hxk, hxw]
      exact lookupSel_setEntry_self acc k w
    · apply ih _ (fun pvv hpvv => huniq pvv (List.mem_cons_of_mem _ hpvv))
      rcases hd with ⟨pvv, hpvv, hpk⟩ | h
      · rcases List.mem_cons.mp hpvv with he | he
        · exact absurd (he ▸ hpk) hxk
        · exact Or.inl ⟨pvv, he, hpk⟩
      · right
        rw [lookupSel_setEntry_ne _ _ _ _ (fun he => hxk he.symm)]
        exact h

theorem lookupSel_selOfVariant {vr : ProductVariant} (hu : UniqVariant vr)
    (k w : String) :
    lookupSel (selOfVariant vr) k = some w ↔ VHas vr k w := by
  constructor
  · intro h
    rcases mem_selOfVariant (mem_of_lookupSel h) with ⟨pvv, hpvv, hpe⟩
    refine ⟨pvv, hpvv, ?_, ?_⟩
    · exact (congrArg Prod.fst hpe).symm
    · exact (congrArg Prod.snd hpe).symm
  · rintro ⟨pvv, hpvv, hk, hw⟩
    apply lookupSel_fold_of_uniq k w _ []
    · intro pvv' hpvv' hk'
      rw [← hw]
      exact (hu pvv hpvv pvv' hpvv' (hk.trans hk'.symm)).symm
    · exact Or.inl ⟨pvv, hpvv, hk⟩

/-! ## Claim theorems: the click handler -/

/-- C5: when at least one variant exactly matches the merged selection
`S[a := v]` on every attribute present in it, `handleSelect` sets the
selection to exactly that merge — attribute `a` becomes `v` and every
other entry is unchanged. -/
theorem claim_C5_exact_merge_frame (variants : List ProductVariant)
    (sel : Selection) (a v : String)
    (h : ∃ vr ∈ variants, ∀ p ∈ setEntry sel a v, VHas vr p.1 p.2) :
    handleSelect variants sel a v = setEntry sel a v ∧
    lookupSel (handleSelect variants sel a v) a = some v ∧
    ∀ k, k ≠ a → lookupSel (handleSelect variants sel a v) k = lookupSel sel k := by
  have hb : hasExactMatch variants (setEntry sel a v) = true :=
    (hasExactMatch_iff _ _).mpr h
  have heq : handleSelect variants sel a v = setEntry sel a v := by
    unfold handleSelect
    simp [hb]
  refine ⟨heq, ?_, ?_⟩
  · rw [heq]; exact lookupSel_setEntry_self sel a v
  · intro k hk; rw [heq]; exact lookupSel_setEntry_ne sel a v k hk

theorem claim_C5_exact_merge_frame_witness :
    handleSelect exCatalog [("size", "s")] "color" "blue" =
      setEntry [("size", "s")] "color" "blue" :=
  (claim_C5_exact_merge_frame exCatalog [("size", "s")] "color" "blue"
    ⟨exVariant "v3" 5 [exBlue, exS], by decide, by decide⟩).1

/-- C9: when no variant matches the merged selection exactly and zero
variants carry the picked (a,v) pair, `handleSelect` collapses the
selection to the single entry `a := v` (the functions involved are all
total, so nothing is thrown). -/
theorem claim_C9_zero_candidate_fallback (variants : List ProductVariant)
    (sel : Selection) (a v : String)
    (hnom : ¬∃ vr ∈ variants, ∀ p ∈ setEntry sel a v, VHas vr p.1 p.2)
    (h : ∀ vr ∈ variants, ¬VHas vr a v) :
    handleSelect variants sel a v = [(a, v)] := by
  have hcand : candidatesFor variants a v = [] := by
    rcases hc : candidatesFor variants a v with _ | ⟨c, cs⟩
    · rfl
    · have hmem : c ∈ candidatesFor variants a v := by
        rw [hc]; exact List.mem_cons_self _ _
      have := mem_candidatesFor.mp hmem
      exact absurd this.2 (h c this.1)
  have hb : hasExactMatch variants (setEntry sel a v) = false := by
    rcases hx : hasExactMatch variants (setEntry sel a v) with _ | _
    · rfl
    · exact absurd ((hasExactMatch_iff _ _).mp hx) hnom
  unfold handleSelect
  simp [hb, hcand]

theorem claim_C9_zero_candidate_fallback_witness :
    handleSelect exCatalog [("color", "red")] "material" "wood" =
      [("material", "wood")] :=
  claim_C9_zero_candidate_fallback exCatalog [("color", "red")] "material" "wood"
    (by decide) (by decide)

/-- C1: when the picked (a,v) pair has no exact-match variant with the
merged selection but at least one variant carries it, `handleSelect`
replaces the selection with exactly the assignments of the candidate
(among variants carrying the pair, listed in catalog order by
`candidatesFor`) matching the greatest number of other selected
attribute values, ties going to the earliest candidate; the result maps
`a` to `v`.  The per-variant at-most-one-value-per-attribute invariant
of spec §3 (`UniqVariant`) is assumed for the catalog. -/
theorem claim_C1_smart_switch_best_match (variants : List ProductVariant)
    (sel : Selection) (a v : String)
    (huniq : ∀ vr ∈ variants, UniqVariant vr)
    (hnom : ¬∃ vr ∈ variants, ∀ p ∈ setEntry sel a v, VHas vr p.1 p.2)
    (hcarry : ∃ vr ∈ variants, VHas vr a v) :
    ∃ best l1 l2,
      candidatesFor variants a v = l1 ++ best :: l2 ∧
      handleSelect variants sel a v = selOfVariant best ∧
      (∀ c ∈ candidatesFor variants a v,
        matchScore sel a c ≤ matchScore sel a best) ∧
      (∀ c ∈ l1, matchScore sel a c < matchScore sel a best) ∧
      (∀ k w, lookupSel (selOfVariant best) k = some w ↔ VHas best k w) ∧
      lookupSel (handleSelect variants sel a v) a = some v := by
  have hb : hasExactMatch variants (setEntry sel a v) = false := by
    rcases hx : hasExactMatch variants (setEntry sel a v) with _ | _
    · rfl
    · exact absurd ((hasExactMatch_iff _ _).mp hx) hnom
  obtain ⟨vr, hvr, hvz⟩ := hcarry
  rcases hc : candidatesFor variants a v with _ | ⟨c0, cs⟩
  · have : vr ∈ candidatesFor variants a v := mem_candidatesFor.mpr ⟨hvr, hvz⟩
    rw [hc] at this
    cases this
  have heq := handleSelect_smart variants sel a v hb c0 cs hc
  have hbmem : firstMaxAux (matchScore sel a) cs c0 ∈ candidatesFor variants a v := by
    rw [hc]; exact firstMaxAux_mem (matchScore sel a) cs c0
  obtain ⟨hbvar, hbcarry⟩ := mem_candidatesFor.mp hbmem
  have hbu : UniqVariant (firstMaxAux (matchScore sel a) cs c0) :=
    huniq _ hbvar
  have hlook : ∀ k w,
      lookupSel (selOfVariant (firstMaxAux (matchScore sel a) cs c0)) k = some w ↔
        VHas (firstMaxAux (matchScore sel a) cs c0) k w :=
    fun k w => lookupSel_selOfVariant hbu k w
  have hlast : lookupSel (handleSelect variants sel a v) a = some v := by
    rw [heq]
    exact (hlook a v).mpr hbcarry
  rcases firstMaxAux_spec (matchScore sel a) cs c0 with ⟨hid, hle⟩ |
    ⟨l1, l2, hdec, hlt, hl1, hl2⟩
  · refine ⟨firstMaxAux (matchScore sel a) cs c0, [], cs, ?_, heq, ?_, by simp,
      hlook, hlast⟩
    · rw [hid]; rfl
    · intro c hcm
      rcases List.mem_cons.mp hcm with h | h
      · rw [h, hid]
      · rw [hid]; exact hle c h
  · refine ⟨firstMaxAux (matchScore sel a) cs c0, c0 :: l1, l2, ?_, heq, ?_, ?_,
      hlook, hlast⟩
    · conv_lhs => rw [hdec]
      rw [List.cons_append]
    · intro c hcm
      rcases List.mem_cons.mp hcm with h | h
      · rw [h]; exact hlt.le
      · rw [hdec] at h
        rcases List.mem_append.mp h with h | h
        · exact (hl1 c h).le
        · rcases List.mem_cons.mp h with h | h
          · rw [h]
          · exact hl2 c h
    · intro c hcm
      rcases List.mem_cons.mp hcm with h | h
      · rw [h]; exact hlt
      · exact hl1 c h

theorem claim_C1_smart_switch_best_match_witness :
    lookupSel (handleSelect exCatalog [("color", "blue")] "size" "m") "size" =
      some "m" := by
  obtain ⟨best, l1, l2, -, -, -, -, -, hlast⟩ :=
    claim_C1_smart_switch_best_match exCatalog [("color", "blue")] "size" "m"
      (by decide) (by decide) (by decide)
  exact hlast

/-- C10: after any `handleSelect(a,v)` call in which at least one
variant carries the picked pair, some variant of the catalog carries
every (attribute, value) pair of the resulting selection. -/
theorem claim_C10_result_backed_by_variant (variants : List ProductVariant)
    (sel : Selection) (a v : String)
    (hcarry : ∃ vr ∈ variants, VHas vr a v) :
    ∃ vr ∈ variants, ∀ p ∈ handleSelect variants sel a v, VHas vr p.1 p.2 := by
  rcases hx : hasExactMatch variants (setEntry sel a v) with _ | _
  · obtain ⟨vr, hvr, hvz⟩ := hcarry
    rcases hc : candidatesFor variants a v with _ | ⟨c0, cs⟩
    · have : vr ∈ candidatesFor variants a v := mem_candidatesFor.mpr ⟨hvr, hvz⟩
      rw [hc] at this
      cases this
    have heq := handleSelect_smart variants sel a v hx c0 cs hc
    have hbmem : firstMaxAux (matchScore sel a) cs c0 ∈ candidatesFor variants a v := by
      rw [hc]; exact firstMaxAux_mem (matchScore sel a) cs c0
    refine ⟨firstMaxAux (matchScore sel a) cs c0,
      (mem_candidatesFor.mp hbmem).1, ?_⟩
    intro p hp
    rw [heq] at hp
    rcases mem_selOfVariant hp with ⟨pvv, hpvv, hpe⟩
    exact ⟨pvv, hpvv, (congrArg Prod.fst hpe).symm, (congrArg Prod.snd hpe).symm⟩
  · obtain ⟨vr, hvr, hall⟩ := (hasExactMatch_iff _ _).mp hx
    have heq : handleSelect variants sel a v = setEntry sel a v := by
      unfold handleSelect
      simp [hx]
    exact ⟨vr, hvr, by rw [heq]; exact hall⟩

theorem claim_C10_result_backed_by_variant_witness :
    ∃ vr ∈ exCatalog,
      ∀ p ∈ handleSelect exCatalog [("color", "blue")] "size" "m",
        VHas vr p.1 p.2 :=
  claim_C10_result_backed_by_variant exCatalog [("color", "blue")] "size" "m"
    (by decide)

/-! ## The derived attribute index -/

theorem updEntry_id (pvv : VariantAttributeValue) (e : AttrEntry) :
    (updEntry pvv e).id = e.id := by
  unfold updEntry
  by_cases h1 : (e.id == pvv.product_attribute_values.product_attributes.id) = true
  · rw [if_pos h1]
    by_cases h2 : (e.values.any (fun q => q.id == pvv.product_attribute_values.id)) = true
    · rw [if_pos h2]
    · rw [if_neg h2]
  · rw [if_neg h1]

theorem updEntry_values_sub (pvv : VariantAttributeValue) (e : AttrEntry) :
    ∀ q ∈ e.values, q ∈ (updEntry pvv e).values := by
  intro q hq
  unfold updEntry
  by_cases h1 : (e.id == pvv.product_attribute_values.product_attributes.id) = true
  · rw [if_pos h1]
    by_cases h2 : (e.values.any (fun q => q.id == pvv.product_attribute_values.id)) = true
    · rw [if_pos h2]; exact hq
    · rw [if_neg h2]; exact List.mem_append_left _ hq
  · rw [if_neg h1]; exact hq

theorem mem_updEntry_values (pvv : VariantAttributeValue) (e : AttrEntry)
    {q : ValEntry} (hq : q ∈ (updEntry pvv e).values) :
    q ∈ e.values ∨
    (e.id = pvv.product_attribute_values.product_attributes.id ∧
     q = ⟨pvv.product_attribute_values.id, pvv.product_attribute_values.value, 0⟩) := by
  unfold updEntry at hq
  by_cases h1 : (e.id == pvv.product_attribute_values.product_attributes.id) = true
  · rw [if_pos h1] at hq
    by_cases h2 : (e.values.any (fun q => q.id == pvv.product_attribute_values.id)) = true
    · rw [if_pos h2] at hq; exact Or.inl hq
    · rw [if_neg h2] at hq
      rcases List.mem_append.mp hq with h | h
      · exact Or.inl h
      · exact Or.inr ⟨beq_iff_eq.mp h1, by simpa using h⟩
  · rw [if_neg h1] at hq; exact Or.inl hq

theorem attrIn_addPVV (acc : List AttrEntry) (pvv : VariantAttributeValue)
    (a : String) :
    AttrIn (addPVV acc pvv) a ↔
      AttrIn acc a ∨ pvv.product_attribute_values.product_attributes.id = a := by
  unfold addPVV
  by_cases hany : (acc.any (fun e =>
      e.id == pvv.product_attribute_values.product_attributes.id)) = true
  · rw [if_pos hany]
    have hex : AttrIn acc pvv.product_attribute_values.product_attributes.id := by
      obtain ⟨e, he, hid⟩ := List.any_eq_true.mp hany
      exact ⟨e, he, beq_iff_eq.mp hid⟩
    constructor
    · rintro ⟨e, he, hid⟩
      rcases List.mem_map.mp he with ⟨e0, he0, rfl⟩
      exact Or.inl ⟨e0, he0, by rw [← updEntry_id pvv e0]; exact hid⟩
    · rintro (⟨e, he, hid⟩ | hid)
      · exact ⟨updEntry pvv e, List.mem_map.mpr ⟨e, he, rfl⟩,
          by rw [updEntry_id]; exact hid⟩
      · obtain ⟨e, he, hide⟩ := hex
        exact ⟨updEntry pvv e, List.mem_map.mpr ⟨e, he, rfl⟩,
          by rw [updEntry_id, hide]; exact hid⟩
  · rw [if_neg hany]
    constructor
    · rintro ⟨e, he, hid⟩
      rcases List.mem_append.mp he with h | h
      · exact Or.inl ⟨e, h, hid⟩
      · right
        have he' : e = newEntry pvv := by simpa using h
        rw [he'] at hid
        exact hid
    · rintro (⟨e, he, hid⟩ | hid)
      · exact ⟨e, List.mem_append_left _ he, hid⟩
      · exact ⟨newEntry pvv, List.mem_append_right _ (by simp), hid⟩

theorem pairIn_addPVV (acc : List AttrEntry) (pvv : VariantAttributeValue)
    (a w : String) :
    PairIn (addPVV acc pvv) a w ↔
      PairIn acc a w ∨
      (pvv.product_attribute_values.product_attributes.id = a ∧
       pvv.product_attribute_values.id = w) := by
  unfold addPVV
  by_cases hany : (acc.any (fun e =>
      e.id == pvv.product_attribute_values.product_attributes.id)) = true
  · rw [if_pos hany]
    constructor
    · rintro ⟨e, he, hid, q, hq, hqid⟩
      rcases List.mem_map.mp he with ⟨e0, he0, rfl⟩
      rcases mem_updEntry_values pvv e0 hq with h | ⟨hea, hqe⟩
      · exact Or.inl ⟨e0, he0, by rw [← updEntry_id pvv e0]; exact hid, q, h, hqid⟩
      · right
        refine ⟨?_, ?_⟩
        · rw [← hea, ← updEntry_id pvv e0]; exact hid
        · rw [← hqid, hqe]
    · rintro (⟨e, he, hid, q, hq, hqid⟩ | ⟨ha, hw⟩)
      · exact ⟨updEntry pvv e, List.mem_map.mpr ⟨e, he, rfl⟩,
          by rw [updEntry_id]; exact hid, q, updEntry_values_sub pvv e q hq, hqid⟩
      · obtain ⟨e, he, hide⟩ := List.any_eq_true.mp hany
        refine ⟨updEntry pvv e, List.mem_map.mpr ⟨e, he, rfl⟩,
          by rw [updEntry_id]; rw [beq_iff_eq.mp hide]; exact ha, ?_⟩
        by_cases h2 : (e.values.any (fun q => q.id == pvv.product_attribute_values.id)) = true
        · obtain ⟨q, hq, hqid⟩ := List.any_eq_true.mp h2
          exact ⟨q, updEntry_values_sub pvv e q hq,
            by rw [beq_iff_eq.mp hqid]; exact hw⟩
        · refine ⟨⟨pvv.product_attribute_values.id,
            pvv.product_attribute_values.value, 0⟩, ?_, hw⟩
          unfold updEntry
          rw [if_pos hide, if_neg h2]
          exact List.mem_append_right _ (by simp)
  · rw [if_neg hany]
    constructor
    · rintro ⟨e, he, hid, q, hq, hqid⟩
      rcases List.mem_append.mp he with h | h
      · exact Or.inl ⟨e, h, hid, q, hq, hqid⟩
      · right
        have he' : e = newEntry pvv := by simpa using h
        subst he'
        refine ⟨hid, ?_⟩
        have hqe : q = ⟨pvv.product_attribute_values.id,
            pvv.product_attribute_values.value, 0⟩ := by
          simpa [newEntry] using hq
        rw [← hqid, hqe]
    · rintro (⟨e, he, hid, q, hq, hqid⟩ | ⟨ha, hw⟩)
      · exact ⟨e, List.mem_append_left _ he, hid, q, hq, hqid⟩
      · exact ⟨newEntry pvv, List.mem_append_right _ (by simp), ha,
          ⟨pvv.product_attribute_values.id, pvv.product_attribute_values.value, 0⟩,
          by simp [newEntry], hw⟩

theorem ids_addPVV_nodup (acc : List AttrEntry) (pvv : VariantAttributeValue)
    (h : (acc.map AttrEntry.id).Nodup) :
    ((addPVV acc pvv).map AttrEntry.id).Nodup := by
  unfold addPVV
  by_cases hany : (acc.any (fun e =>
      e.id == pvv.product_attribute_values.product_attributes.id)) = true
  · rw [if_pos hany]
    have hmm : (acc.map (updEntry pvv)).map AttrEntry.id = acc.map AttrEntry.id := by
      rw [List.map_map]
      exact List.map_congr_left fun e _ => updEntry_id pvv e
    rw [hmm]
    exact h
  · rw [if_neg hany]
    rw [List.map_append]
    rw [List.nodup_append]
    refine ⟨h, by simp, ?_⟩
    intro b hb hbx
    have hbe : b = (newEntry pvv).id := by simpa using hbx
    rcases List.mem_map.mp hb with ⟨e, he, hid⟩
    apply hany
    apply List.any_eq_true.mpr
    exact ⟨e, he, beq_iff_eq.mpr (by rw [hid, hbe]; rfl)⟩

theorem values_addPVV_nodup (acc : List AttrEntry) (pvv : VariantAttributeValue)
    (h : ∀ e ∈ acc, (e.values.map ValEntry.id).Nodup) :
    ∀ e ∈ addPVV acc pvv, (e.values.map ValEntry.id).Nodup := by
  unfold addPVV
  by_cases hany : (acc.any (fun e =>
      e.id == pvv.product_attribute_values.product_attributes.id)) = true
  · rw [if_pos hany]
    intro e he
    rcases List.mem_map.mp he with ⟨e0, he0, rfl⟩
    unfold updEntry
    by_cases h1 : (e0.id == pvv.product_attribute_values.product_attributes.id) = true
    · rw [if_pos h1]
      by_cases h2 : (e0.values.any (fun q =>
          q.id == pvv.product_attribute_values.id)) = true
      · rw [if_pos h2]; exact h e0 he0
      · rw [if_neg h2]
        simp only [List.map_append, List.map_cons, List.map_nil]
        rw [List.nodup_append]
        refine ⟨h e0 he0, by simp, ?_⟩
        intro b hb hbx
        have hbe : b = pvv.product_attribute_values.id := by simpa using hbx
        rcases List.mem_map.mp hb with ⟨q, hq, hqid⟩
        exact h2 (List.any_eq_true.mpr ⟨q, hq, beq_iff_eq.mpr (hqid.trans hbe)⟩)
    · rw [if_neg h1]; exact h e0 he0
  · rw [if_neg hany]
    intro e he
    rcases List.mem_append.mp he with he | he
    · exact h e he
    · have he' : e = newEntry pvv := by simpa using he
      rw [he']
      simp [newEntry]

/-- Pair membership over the inner fold of `product_variant_values`. -/
theorem pairIn_foldl_addPVV (pvvs : List VariantAttributeValue) :
    ∀ (acc : List AttrEntry) (a w : String),
      PairIn (pvvs.foldl addPVV acc) a w ↔
        PairIn acc a w ∨ ∃ pvv ∈ pvvs,
          pvv.product_attribute_values.product_attributes.id = a ∧
          pvv.product_attribute_values.id = w := by
  induction pvvs with
  | nil => intro acc a w; simp
  | cons x rest ih =>
    intro acc a w
    simp only [List.foldl_cons]
    rw [ih, pairIn_addPVV]
    simp only [List.mem_cons]
    constructor
    · rintro ((h | h) | ⟨pvv, hp, he⟩)
      · exact Or.inl h
      · exact Or.inr ⟨x, Or.inl rfl, h⟩
      · exact Or.inr ⟨pvv, Or.inr hp, he⟩
    · rintro (h | ⟨pvv, hp | hp, he⟩)
      · exact Or.inl (Or.inl h)
      · exact Or.inl (Or.inr (hp ▸ he))
      · exact Or.inr ⟨pvv, hp, he⟩

/-- Attribute membership over the inner fold. -/
theorem attrIn_foldl_addPVV (pvvs : List VariantAttributeValue) :
    ∀ (acc : List AttrEntry) (a : String),
      AttrIn (pvvs.foldl addPVV acc) a ↔
        AttrIn acc a ∨ ∃ pvv ∈ pvvs,
          pvv.product_attribute_values.product_attributes.id = a := by
  induction pvvs with
  | nil => intro acc a; simp
  | cons x rest ih =>
    intro acc a
    simp only [List.foldl_cons]
    rw [ih, attrIn_addPVV]
    simp only [List.mem_cons]
    constructor
    · rintro ((h | h) | ⟨pvv, hp, he⟩)
      · exact Or.inl h
      · exact Or.inr ⟨x, Or.inl rfl, h⟩
      · exact Or.inr ⟨pvv, Or.inr hp, he⟩
    · rintro (h | ⟨pvv, hp | hp, he⟩)
      · exact Or.inl (Or.inl h)
      · exact Or.inl (Or.inr (hp ▸ he))
      · exact Or.inr ⟨pvv, hp, he⟩

theorem ids_foldl_addPVV_nodup (pvvs : List VariantAttributeValue) :
    ∀ acc : List AttrEntry, (acc.map AttrEntry.id).Nodup →
      ((pvvs.foldl addPVV acc).map AttrEntry.id).Nodup := by
  induction pvvs with
  | nil => intro acc h; exact h
  | cons x rest ih =>
    intro acc h
    simp only [List.foldl_cons]
    exact ih _ (ids_addPVV_nodup acc x h)

theorem values_foldl_addPVV_nodup (pvvs : List VariantAttributeValue) :
    ∀ acc : List AttrEntry, (∀ e ∈ acc, (e.values.map ValEntry.id).Nodup) →
      ∀ e ∈ pvvs.foldl addPVV acc, (e.values.map ValEntry.id).Nodup := by
  induction pvvs with
  | nil => intro acc h; exact h
  | cons x rest ih =>
    intro acc h
    simp only [List.foldl_cons]
    exact ih _ (values_addPVV_nodup acc x h)

/-- Pair membership in the whole (unsorted) attribute map. -/
theorem pairIn_attributesList (variants : List ProductVariant) (a w : String) :
    PairIn (attributesList variants) a w ↔
      ∃ vr ∈ variants, ∃ pvv ∈ vr.product_variant_values,
        pvv.product_attribute_values.product_attributes.id = a ∧
        pvv.product_attribute_values.id = w := by
  have key : ∀ acc : List AttrEntry,
      PairIn (variants.foldl (fun acc vr =>
        vr.product_variant_values.foldl addPVV acc) acc) a w ↔
      PairIn acc a w ∨ ∃ vr ∈ variants, ∃ pvv ∈ vr.product_variant_values,
        pvv.product_attribute_values.product_attributes.id = a ∧
        pvv.product_attribute_values.id = w := by
    induction variants with
    | nil => intro acc; simp
    | cons vr rest ih =>
      intro acc
      simp only [List.foldl_cons]
      rw [ih, pairIn_foldl_addPVV]
      simp only [List.mem_cons]
      constructor
      · rintro ((h | h) | ⟨vr', hv, he⟩)
        · exact Or.inl h
        · exact Or.inr ⟨vr, Or.inl rfl, h⟩
        · exact Or.inr ⟨vr', Or.inr hv, he⟩
      · rintro (h | ⟨vr', hv | hv, he⟩)
        · exact Or.inl (Or.inl h)
        · exact Or.inl (Or.inr (hv ▸ he))
        · exact Or.inr ⟨vr', hv, he⟩
  have h0 : ¬PairIn ([] : List AttrEntry) a w := by simp [PairIn]
  unfold attributesList
  rw [key []]
  simp [h0]

/-- Attribute membership in the whole (unsorted) attribute map. -/
theorem attrIn_attributesList (variants : List ProductVariant) (a : String) :
    AttrIn (attributesList variants) a ↔
      ∃ vr ∈ variants, ∃ pvv ∈ vr.product_variant_values,
        pvv.product_attribute_values.product_attributes.id = a := by
  have key : ∀ acc : List AttrEntry,
      AttrIn (variants.foldl (fun acc vr =>
        vr.product_variant_values.foldl addPVV acc) acc) a ↔
      AttrIn acc a ∨ ∃ vr ∈ variants, ∃ pvv ∈ vr.product_variant_values,
        pvv.product_attribute_values.product_attributes.id = a := by
    induction variants with
    | nil => intro acc; simp
    | cons vr rest ih =>
      intro acc
      simp only [List.foldl_cons]
      rw [ih, attrIn_foldl_addPVV]
      simp only [List.mem_cons]
      constructor
      · rintro ((h | h) | ⟨vr', hv, he⟩)
        · exact Or.inl h
        · exact Or.inr ⟨vr, Or.inl rfl, h⟩
        · exact Or.inr ⟨vr', Or.inr hv, he⟩
      · rintro (h | ⟨vr', hv | hv, he⟩)
        · exact Or.inl (Or.inl h)
        · exact Or.inl (Or.inr (hv ▸ he))
        · exact Or.inr ⟨vr', hv, he⟩
  have h0 : ¬AttrIn ([] : List AttrEntry) a := by simp [AttrIn]
  unfold attributesList
  rw [key []]
  simp [h0]

theorem ids_attributesList_nodup (variants : List ProductVariant) :
    ((attributesList variants).map AttrEntry.id).Nodup := by
  have key : ∀ acc : List AttrEntry, (acc.map AttrEntry.id).Nodup →
      ((variants.foldl (fun acc vr =>
        vr.product_variant_values.foldl addPVV acc) acc).map AttrEntry.id).Nodup := by
    induction variants with
    | nil => intro acc h; exact h
    | cons vr rest ih =>
      intro acc h
      simp only [List.foldl_cons]
      exact ih _ (ids_foldl_addPVV_nodup _ acc h)
  exact key [] (by simp)

theorem values_attributesList_nodup (variants : List ProductVariant) :
    ∀ e ∈ attributesList variants, (e.values.map ValEntry.id).Nodup := by
  have key : ∀ acc : List AttrEntry,
      (∀ e ∈ acc, (e.values.map ValEntry.id).Nodup) →
      ∀ e ∈ variants.foldl (fun acc vr =>
        vr.product_variant_values.foldl addPVV acc) acc,
        (e.values.map ValEntry.id).Nodup := by
    induction variants with
    | nil => intro acc h; exact h
    | cons vr rest ih =>
      intro acc h
      simp only [List.foldl_cons]
      exact ih _ (values_foldl_addPVV_nodup _ acc h)
  exact key [] (by simp)

theorem productAttributes_perm (variants : List ProductVariant) :
    (productAttributes variants).Perm (attributesList variants) :=
  List.mergeSort_perm _ _

theorem mem_productAttributes_iff (variants : List ProductVariant) (e : AttrEntry) :
    e ∈ productAttributes variants ↔ e ∈ attributesList variants :=
  (productAttributes_perm variants).mem_iff

theorem attrIn_productAttributes (variants : List ProductVariant) (a : String) :
    AttrIn (productAttributes variants) a ↔
      ∃ vr ∈ variants, ∃ pvv ∈ vr.product_variant_values,
        pvv.product_attribute_values.product_attributes.id = a := by
  rw [← attrIn_attributesList]
  unfold AttrIn
  constructor
  · rintro ⟨e, he, hid⟩
    exact ⟨e, (mem_productAttributes_iff variants e).mp he, hid⟩
  · rintro ⟨e, he, hid⟩
    exact ⟨e, (mem_productAttributes_iff variants e).mpr he, hid⟩

theorem pairIn_productAttributes (variants : List ProductVariant) (a w : String) :
    PairIn (productAttributes variants) a w ↔
      ∃ vr ∈ variants, ∃ pvv ∈ vr.product_variant_values,
        pvv.product_attribute_values.product_attributes.id = a ∧
        pvv.product_attribute_values.id = w := by
  rw [← pairIn_attributesList]
  unfold PairIn
  constructor
  · rintro ⟨e, he, h⟩
    exact ⟨e, (mem_productAttributes_iff variants e).mp he, h⟩
  · rintro ⟨e, he, h⟩
    exact ⟨e, (mem_productAttributes_iff variants e).mpr he, h⟩

theorem ids_productAttributes_nodup (variants : List ProductVariant) :
    ((productAttributes variants).map AttrEntry.id).Nodup :=
  (((productAttributes_perm variants).map AttrEntry.id).nodup_iff).mpr
    (ids_attributesList_nodup variants)

theorem values_productAttributes_nodup (variants : List ProductVariant) :
    ∀ e ∈ productAttributes variants, (e.values.map ValEntry.id).Nodup :=
  fun e he => values_attributesList_nodup variants e
    ((mem_productAttributes_iff variants e).mp he)

theorem mem_indexPairs (variants : List ProductVariant) (a w : String) :
    (a, w) ∈ indexPairs variants ↔ PairIn (productAttributes variants) a w := by
  unfold indexPairs PairIn
  constructor
  · intro h
    rcases List.mem_flatMap.mp h with ⟨e, he, hq⟩
    rcases List.mem_map.mp hq with ⟨q, hqv, hqe⟩
    refine ⟨e, he, ?_, q, hqv, ?_⟩
    · exact (congrArg Prod.fst hqe)
    · exact (congrArg Prod.snd hqe)
  · rintro ⟨e, he, hid, q, hq, hqid⟩
    apply List.mem_flatMap.mpr
    refine ⟨e, he, List.mem_map.mpr ⟨q, hq, ?_⟩⟩
    rw [hid, hqid]

/-- Distinct entry ids and per-entry distinct value ids give distinct
(attribute id, value id) pairs. -/
theorem nodup_flatPairs (l : List AttrEntry)
    (hid : (l.map AttrEntry.id).Nodup)
    (hvals : ∀ e ∈ l, (e.values.map ValEntry.id).Nodup) :
    (l.flatMap (fun e => e.values.map (fun q => (e.id, q.id)))).Nodup := by
  induction l with
  | nil => simp
  | cons e rest ih =>
    simp only [List.flatMap_cons]
    rw [List.nodup_append]
    simp only [List.map_cons, List.nodup_cons] at hid
    refine ⟨?_, ?_, ?_⟩
    · have hv := hvals e (List.mem_cons_self _ _)
      have hmm : e.values.map (fun q => (e.id, q.id)) =
          (e.values.map ValEntry.id).map (fun i => (e.id, i)) := by
        rw [List.map_map]
        exact List.map_congr_left fun q _ => rfl
      rw [hmm]
      exact hv.map (fun i j hij => by
        have := congrArg Prod.snd hij
        simpa using this)
    · exact ih hid.2 (fun e' he' => hvals e' (List.mem_cons_of_mem _ he'))
    · intro p hp hp'
      rcases List.mem_map.mp hp with ⟨q, hq, hqe⟩
      rcases List.mem_flatMap.mp hp' with ⟨e', he', hq'⟩
      rcases List.mem_map.mp hq' with ⟨q', hq'v, hq'e⟩
      have h1 : p.1 = e.id := by rw [← hqe]
      have h2 : p.1 = e'.id := by rw [← hq'e]
      apply hid.1
      have hee : e.id = e'.id := h1.symm.trans h2
      rw [hee]
      exact List.mem_map.mpr ⟨e', he', rfl⟩

/-- C7: the derived attribute index lists an attribute iff some variant
carries a value for it, and every (attribute, value) pair carried by
any variant appears exactly once (membership iff carried, plus no
duplicate pairs).  `WFCatalog` identifies the value rows' `attribute_id`
foreign key with the nested attribute record's id, which the index is
keyed on. -/
theorem claim_C7_attribute_index_complete (variants : List ProductVariant)
    (hwf : WFCatalog variants) :
    (∀ a, AttrIn (productAttributes variants) a ↔
      ∃ vr ∈ variants, ∃ pvv ∈ vr.product_variant_values,
        pvv.product_attribute_values.attribute_id = a) ∧
    (∀ a w, (a, w) ∈ indexPairs variants ↔
      ∃ vr ∈ variants, ∃ pvv ∈ vr.product_variant_values,
        pvv.product_attribute_values.attribute_id = a ∧
        pvv.product_attribute_values.id = w) ∧
    (indexPairs variants).Nodup := by
  refine ⟨?_, ?_, ?_⟩
  · intro a
    rw [attrIn_productAttributes]
    constructor
    · rintro ⟨vr, hvr, pvv, hpvv, hid⟩
      exact ⟨vr, hvr, pvv, hpvv, (hwf vr hvr pvv hpvv).trans hid⟩
    · rintro ⟨vr, hvr, pvv, hpvv, hid⟩
      exact ⟨vr, hvr, pvv, hpvv, (hwf vr hvr pvv hpvv).symm.trans hid⟩
  · intro a w
    rw [mem_indexPairs, pairIn_productAttributes]
    constructor
    · rintro ⟨vr, hvr, pvv, hpvv, hid, hw⟩
      exact ⟨vr, hvr, pvv, hpvv, (hwf vr hvr pvv hpvv).trans hid, hw⟩
    · rintro ⟨vr, hvr, pvv, hpvv, hid, hw⟩
      exact ⟨vr, hvr, pvv, hpvv, (hwf vr hvr pvv hpvv).symm.trans hid, hw⟩
  · exact nodup_flatPairs _ (ids_productAttributes_nodup variants)
      (values_productAttributes_nodup variants)

theorem claim_C7_attribute_index_complete_witness :
    (indexPairs exCatalog).Nodup :=
  (claim_C7_attribute_index_complete exCatalog (by decide)).2.2

/-! ## The auto-select effect -/

theorem autoSelect_eq_foldl (pa : List AttrEntry) (sel : Selection) :
    autoSelect pa sel = pa.foldl autoStep sel := by
  unfold autoSelect
  rcases pa with _ | ⟨e, rest⟩
  · rfl
  · rw [if_pos (by simp)]

theorem autoStep_lookup_ne (sel : Selection) (attr : AttrEntry) (k : String)
    (h : k ≠ attr.id) :
    lookupSel (autoStep sel attr) k = lookupSel sel k := by
  unfold autoStep
  by_cases hc : (attr.values.length == 1 && !(truthy (lookupSel sel attr.id))) = true
  · rw [if_pos hc]
    rcases hv : attr.values with _ | ⟨q, rest⟩
    · rfl
    · exact lookupSel_setEntry_ne sel attr.id q.id k h
  · rw [if_neg hc]

theorem foldl_autoStep_lookup_ne (attrs : List AttrEntry) :
    ∀ (sel : Selection) (k : String), (∀ e ∈ attrs, e.id ≠ k) →
      lookupSel (attrs.foldl autoStep sel) k = lookupSel sel k := by
  induction attrs with
  | nil => intro sel k _; rfl
  | cons x rest ih =>
    intro sel k h
    simp only [List.foldl_cons]
    rw [ih _ k (fun e he => h e (List.mem_cons_of_mem _ he))]
    exact autoStep_lookup_ne sel x k
      (fun he => h x (List.mem_cons_self _ _) he.symm)

theorem foldl_autoStep_keeps (attrs : List AttrEntry) :
    ∀ (sel : Selection) (k w : String), lookupSel sel k = some w → w ≠ "" →
      lookupSel (attrs.foldl autoStep sel) k = some w := by
  induction attrs with
  | nil => intro sel k w h _; exact h
  | cons x rest ih =>
    intro sel k w h hw
    simp only [List.foldl_cons]
    apply ih _ k w ?_ hw
    by_cases hk : k = x.id
    · unfold autoStep
      have hc : (x.values.length == 1 && !(truthy (lookupSel sel x.id))) = false := by
        rw [← hk, h]
        simp [truthy, hw]
      rw [hc]
      simp only [Bool.false_eq_true, if_false]
      exact h
    · rw [autoStep_lookup_ne sel x k hk]
      exact h

theorem foldl_autoStep_fires (attrs : List AttrEntry) :
    ∀ sel : Selection, (attrs.map AttrEntry.id).Nodup →
      ∀ e ∈ attrs, ∀ q : ValEntry, e.values = [q] → lookupSel sel e.id = none →
      lookupSel (attrs.foldl autoStep sel) e.id = some q.id := by
  induction attrs with
  | nil => intro sel _ e he; cases he
  | cons x rest ih =>
    intro sel hnd e he q hv hl
    simp only [List.map_cons, List.nodup_cons] at hnd
    simp only [List.foldl_cons]
    rcases List.mem_cons.mp he with he | he
    · subst he
      have hstep : autoStep sel e = setEntry sel e.id q.id := by
        unfold autoStep
        rw [hv]
        have hc : (([q] : List ValEntry).length == 1 &&
            !(truthy (lookupSel sel e.id))) = true := by
          simp [hl, truthy]
        rw [if_pos hc]
      rw [hstep]
      rw [foldl_autoStep_lookup_ne rest _ e.id ?_]
      · exact lookupSel_setEntry_self sel e.id q.id
      · intro e' he' heq
        exact hnd.1 (by rw [← heq]; exact List.mem_map.mpr ⟨e', he', rfl⟩)
    · apply ih _ hnd.2 e he q hv
      by_cases hk : e.id = x.id
      · exact absurd (List.mem_map.mpr ⟨e, he, hk⟩) hnd.1
      · rw [autoStep_lookup_ne sel x e.id hk]
        exact hl

theorem mem_autoStep (sel : Selection) (x : AttrEntry) (p : String × String)
    (h : p ∈ autoStep sel x) : p ∈ sel ∨ p.1 = x.id := by
  unfold autoStep at h
  by_cases hc : (x.values.length == 1 && !(truthy (lookupSel sel x.id))) = true
  · rw [if_pos hc] at h
    rcases hv : x.values with _ | ⟨q, rest⟩
    · rw [hv] at h; exact Or.inl h
    · rw [hv] at h
      rcases mem_setEntry h with h | h
      · exact Or.inl h
      · right; rw [h]
  · rw [if_neg hc] at h; exact Or.inl h

theorem mem_foldl_autoStep (attrs : List AttrEntry) :
    ∀ (sel : Selection) (p : String × String), p ∈ attrs.foldl autoStep sel →
      p ∈ sel ∨ ∃ e ∈ attrs, e.id = p.1 := by
  induction attrs with
  | nil => intro sel p h; exact Or.inl h
  | cons x rest ih =>
    intro sel p h
    simp only [List.foldl_cons] at h
    rcases ih _ p h with h | ⟨e, he, hid⟩
    · rcases mem_autoStep sel x p h with h | h
      · exact Or.inl h
      · exact Or.inr ⟨x, List.mem_cons_self _ _, h.symm⟩
    · exact Or.inr ⟨e, List.mem_cons_of_mem _ he, hid⟩

/-- C8: for every attribute of the derived index with exactly one value
and no current selection, the auto-select rule populates the selection
with that sole value, and it never overrides a value already present
(with the id non-empty, i.e. truthy).  The effect is keyed on the
`[productAttributes]` dependency array in the source, so it is modelled
as a single application of `autoSelect` per attribute-index change (see
`ReachableState`), not one per render. -/
theorem claim_C8_auto_select_rule (variants : List ProductVariant) (sel : Selection) :
    (∀ e ∈ productAttributes variants, ∀ q : ValEntry, e.values = [q] →
      lookupSel sel e.id = none →
      lookupSel (autoSelect (productAttributes variants) sel) e.id = some q.id) ∧
    (∀ k w, lookupSel sel k = some w → w ≠ "" →
      lookupSel (autoSelect (productAttributes variants) sel) k = some w) := by
  constructor
  · intro e he q hv hl
    rw [autoSelect_eq_foldl]
    exact foldl_autoStep_fires _ _ (ids_productAttributes_nodup variants) e he q hv hl
  · intro k w h hw
    rw [autoSelect_eq_foldl]
    exact foldl_autoStep_keeps _ _ k w h hw

theorem claim_C8_auto_select_rule_witness :
    lookupSel (autoSelect (productAttributes exSingleCatalog) []) "color" =
      some "red" :=
  (claim_C8_auto_select_rule exSingleCatalog []).1
    ⟨"color", "Color", none, 1, [⟨"red", "Red", 0⟩]⟩
    ((mem_productAttributes_iff _ _).mpr (by decide))
    ⟨"red", "Red", 0⟩ rfl rfl

/-! ## Claim theorem: no stale selection entries -/

/-- C6: in every reachable state of the selector (selection restarted
empty and auto-selected on mount/product change — modelled from the
spec, see `ReachableState` — and mutated only by clicks on rendered
buttons), every attribute present in the selection appears in the
current catalog's derived attribute index; a catalog change discards
the previous selection rather than merging it. -/
theorem claim_C6_selection_invalidated_on_reload (variants : List ProductVariant)
    (sel : Selection) (h : ReachableState variants sel) (hwf : WFCatalog variants) :
    ∀ p ∈ sel, AttrIn (productAttributes variants) p.1 := by
  revert hwf
  induction h with
  | mount vs =>
    intro _ p hp
    rw [autoSelect_eq_foldl] at hp
    rcases mem_foldl_autoStep _ _ p hp with h | ⟨e, he, hid⟩
    · cases h
    · exact ⟨e, he, hid⟩
  | productChange vs sel' vs2 hprev ih =>
    intro _ p hp
    rw [autoSelect_eq_foldl] at hp
    rcases mem_foldl_autoStep _ _ p hp with h | ⟨e, he, hid⟩
    · cases h
    · exact ⟨e, he, hid⟩
  | click vs sel' a v hprev hbtn ih =>
    intro hwf p hp
    rcases hx : hasExactMatch vs (setEntry sel' a v) with _ | _
    · rcases hc : candidatesFor vs a v with _ | ⟨c0, cs⟩
      · have heq : handleSelect vs sel' a v = [(a, v)] := by
          unfold handleSelect
          simp [hx, hc]
        rw [heq] at hp
        have hpe : p = (a, v) := by simpa using hp
        obtain ⟨e, he, hea, -⟩ := hbtn
        rw [hpe]
        exact ⟨e, he, hea⟩
      · have heq := handleSelect_smart vs sel' a v hx c0 cs hc
        rw [heq] at hp
        rcases mem_selOfVariant hp with ⟨pvv, hpvv, hpe⟩
        have hbmem : firstMaxAux (matchScore sel' a) cs c0 ∈
            candidatesFor vs a v := by
          rw [hc]; exact firstMaxAux_mem _ cs c0
        have hbvar := (mem_candidatesFor.mp hbmem).1
        have hidx : AttrIn (productAttributes vs)
            pvv.product_attribute_values.product_attributes.id :=
          (attrIn_productAttributes vs _).mpr ⟨_, hbvar, pvv, hpvv, rfl⟩
        have hfst : p.1 = pvv.product_attribute_values.attribute_id :=
          congrArg Prod.fst hpe
        rw [hfst, hwf _ hbvar pvv hpvv]
        exact hidx
    · have heq : handleSelect vs sel' a v = setEntry sel' a v := by
        unfold handleSelect
        simp [hx]
      rw [heq] at hp
      rcases mem_setEntry hp with h | h
      · exact ih hwf p h
      · obtain ⟨e, he, hea, -⟩ := hbtn
        rw [h]
        exact ⟨e, he, hea⟩

unseal List.merge List.mergeSort in
theorem productAttributes_exSingleCatalog_eval :
    productAttributes exSingleCatalog =
      [⟨"color", "Color", none, 1, [⟨"red", "Red", 0⟩]⟩,
       ⟨"size", "Size", none, 2, [⟨"s", "S", 0⟩]⟩] := rfl

theorem claim_C6_selection_invalidated_on_reload_witness :
    AttrIn (productAttributes exSingleCatalog) "color" := by
  have h := claim_C6_selection_invalidated_on_reload exSingleCatalog
    (autoSelect (productAttributes exSingleCatalog) [])
    (ReachableState.mount exSingleCatalog) (by decide)
  apply h ("color", "red")
  rw [autoSelect_eq_foldl, productAttributes_exSingleCatalog_eval]
  decide

/-! ## The variant-match effect -/

theorem attrEntry_eq_of_id {l : List AttrEntry}
    (h : (l.map AttrEntry.id).Nodup) {e e' : AttrEntry}
    (he : e ∈ l) (he' : e' ∈ l) (hid : e.id = e'.id) : e = e' :=
  List.inj_on_of_nodup_map h he he' hid

theorem assignmentsEq_of_matchPred (variants : List ProductVariant)
    (sel : Selection)
    (huniq : ∀ vr ∈ variants, UniqVariant vr)
    (hwf : WFCatalog variants)
    (hkeys : ∀ p ∈ sel, AttrIn (productAttributes variants) p.1)
    (hnd : (sel.map Prod.fst).Nodup)
    (hfull : ∀ e ∈ productAttributes variants,
      ∃ w, lookupSel sel e.id = some w ∧ w ≠ "")
    {vr : ProductVariant} (hmem : vr ∈ variants)
    (hP : matchPred (productAttributes variants) sel vr = true) :
    AssignmentsEq vr sel := by
  constructor
  · intro p hp
    obtain ⟨e, he, heid⟩ := hkeys p hp
    have hPe := List.all_eq_true.mp hP e he
    have hlook : lookupSel sel e.id = some p.2 := by
      rw [heid]
      exact lookupSel_of_nodup (by cases p; exact hp) hnd
    rw [hlook] at hPe
    have hv : VHas vr e.id p.2 := (vhas_iff vr e.id p.2).mp hPe
    rw [← heid]
    exact hv
  · intro pvv hpvv
    obtain ⟨e, he, heid⟩ := (attrIn_productAttributes variants
      pvv.product_attribute_values.product_attributes.id).mpr
      ⟨vr, hmem, pvv, hpvv, rfl⟩
    obtain ⟨w, hw, -⟩ := hfull e he
    have hPe := List.all_eq_true.mp hP e he
    rw [hw] at hPe
    obtain ⟨pvv', hpvv', hpa', hpw'⟩ := (vhas_iff vr e.id w).mp hPe
    have haid : pvv.product_attribute_values.attribute_id = e.id :=
      (hwf vr hmem pvv hpvv).trans heid.symm
    have hpvid : pvv.product_attribute_values.id = w :=
      (huniq vr hmem pvv hpvv pvv' hpvv' (haid.trans hpa'.symm)).trans hpw'
    rw [haid, hpvid]
    exact mem_of_lookupSel hw

theorem matchPred_of_assignmentsEq (variants : List ProductVariant)
    (sel : Selection)
    (hfull : ∀ e ∈ productAttributes variants,
      ∃ w, lookupSel sel e.id = some w ∧ w ≠ "")
    {vr : ProductVariant} (hAE : AssignmentsEq vr sel) :
    matchPred (productAttributes variants) sel vr = true := by
  apply List.all_eq_true.mpr
  intro e he
  obtain ⟨w, hw, -⟩ := hfull e he
  rw [hw]
  exact (vhas_iff vr e.id w).mpr (hAE.1 (e.id, w) (mem_of_lookupSel hw))

theorem chosenValueName_spec (variants : List ProductVariant) (sel : Selection)
    (hwf : WFCatalog variants)
    (hfull : ∀ e ∈ productAttributes variants,
      ∃ w, lookupSel sel e.id = some w ∧ w ≠ "")
    {vr : ProductVariant} (hmem : vr ∈ variants)
    (hP : matchPred (productAttributes variants) sel vr = true) :
    ∀ e ∈ productAttributes variants, ∃ q ∈ e.values,
      lookupSel sel e.id = some q.id ∧ chosenValueName sel e = q.value := by
  intro e he
  obtain ⟨w, hw, -⟩ := hfull e he
  have hPe := List.all_eq_true.mp hP e he
  rw [hw] at hPe
  obtain ⟨pvv', hpvv', hpa', hpw'⟩ := (vhas_iff vr e.id w).mp hPe
  have hpair : PairIn (productAttributes variants) e.id w :=
    (pairIn_productAttributes variants e.id w).mpr
      ⟨vr, hmem, pvv', hpvv', (hwf vr hmem pvv' hpvv').symm.trans hpa', hpw'⟩
  obtain ⟨e', he', he'id, q, hq, hqid⟩ := hpair
  have hee : e' = e := attrEntry_eq_of_id (ids_productAttributes_nodup variants)
    he' he he'id
  rw [hee] at hq
  have hfs : (e.values.find? (fun q' => q'.id == w)).isSome := by
    rw [List.find?_isSome]
    exact ⟨q, hq, beq_iff_eq.mpr hqid⟩
  rcases hq0 : e.values.find? (fun q' => q'.id == w) with _ | q0
  · rw [hq0] at hfs; cases hfs
  · have hq0p := List.find?_some hq0
    have hq0id : q0.id = w := beq_iff_eq.mp hq0p
    refine ⟨q0, List.mem_of_find?_eq_some hq0, ?_, ?_⟩
    · rw [hw, hq0id]
    · unfold chosenValueName
      rw [hw]
      show (match List.find? (fun q => q.id == w) e.values with
        | some q => q.value
        | none => "") = q0.value
      rw [hq0]

/-- C3 counterexample to the claim as stated: with a catalog whose only
variant carries no attribute values, the derived index is empty, the
empty selection covers every index attribute (vacuously full), and a
variant whose assignment set equals the selection exists — yet the
effect returns without reporting any variant (the
`productAttributes.length === 0` guard fires). -/
theorem claim_C3_match_resolver_counterexample :
    (∀ e ∈ productAttributes exBareCatalog,
      ∃ w, lookupSel ([] : Selection) e.id = some w) ∧
    (∃ vr ∈ exBareCatalog, AssignmentsEq vr ([] : Selection)) ∧
    resolveMatch exBareCatalog [] = none := by
  have hpa : productAttributes exBareCatalog = [] := by
    rcases hp : productAttributes exBareCatalog with _ | ⟨e, rest⟩
    · rfl
    · exfalso
      have hm : AttrIn (productAttributes exBareCatalog) e.id := by
        rw [hp]; exact ⟨e, List.mem_cons_self _ _, rfl⟩
      obtain ⟨vr, hvr, pvv, hpvv, -⟩ :=
        (attrIn_productAttributes exBareCatalog e.id).mp hm
      have : vr = (⟨"v0", "p0", 100, 1, true, none, []⟩ : ProductVariant) := by
        simpa [exBareCatalog] using hvr
      rw [this] at hpvv
      cases hpvv
  refine ⟨?_, ?_, ?_⟩
  · intro e he
    rw [hpa] at he
    cases he
  · exact ⟨⟨"v0", "p0", 100, 1, true, none, []⟩, by decide, by decide⟩
  · unfold resolveMatch
    rw [hpa]
    rfl

/-- C3 (amended): for a catalog whose derived attribute index is
non-empty (with the spec §3 per-variant invariant, the join's
referential integrity, and a selection that is keyed by index
attributes without duplicate keys): when every index attribute has a
truthy selected value the effect reports a variant iff some variant's
assignment set equals the selection exactly (and any reported variant's
assignment set does), together with the attribute names and the chosen
values' display names joined in index order; when some index attribute
lacks a truthy selected value it reports null with empty display
strings.  The report is a single `Option`, so at most one variant is
ever reported, and all functions involved are total (nothing throws). -/
theorem claim_C3_match_resolver_amended (variants : List ProductVariant)
    (sel : Selection)
    (hpa : productAttributes variants ≠ [])
    (huniq : ∀ vr ∈ variants, UniqVariant vr)
    (hwf : WFCatalog variants)
    (hkeys : ∀ p ∈ sel, AttrIn (productAttributes variants) p.1)
    (hnd : (sel.map Prod.fst).Nodup) :
    ((∀ e ∈ productAttributes variants,
        ∃ w, lookupSel sel e.id = some w ∧ w ≠ "") →
      ∃ r, resolveMatch variants sel = some r ∧
        ((∃ vr ∈ variants, AssignmentsEq vr sel) ↔ r.variant.isSome = true) ∧
        (∀ vr, r.variant = some vr → vr ∈ variants ∧ AssignmentsEq vr sel) ∧
        (r.variant.isSome = true →
          r.attrNames = String.intercalate ", "
            ((productAttributes variants).map (fun a => a.name)) ∧
          r.valueNames = String.intercalate ", "
            ((productAttributes variants).map (chosenValueName sel)) ∧
          ∀ e ∈ productAttributes variants, ∃ q ∈ e.values,
            lookupSel sel e.id = some q.id ∧ chosenValueName sel e = q.value) ∧
        (r.variant = none → r.attrNames = "" ∧ r.valueNames = "")) ∧
    ((∃ e ∈ productAttributes variants,
        lookupSel sel e.id = none ∨ lookupSel sel e.id = some "") →
      resolveMatch variants sel = some ⟨none, "", ""⟩) := by
  have hlen : ((productAttributes variants).length == 0) = false := by
    simpa [List.length_eq_zero] using hpa
  constructor
  · intro hfull
    have hcond : (productAttributes variants).all
        (fun attr => truthy (lookupSel sel attr.id)) = true := by
      apply List.all_eq_true.mpr
      intro e he
      obtain ⟨w, hw, hwne⟩ := hfull e he
      rw [hw]
      simpa [truthy] using hwne
    unfold resolveMatch
    simp only [hlen, Bool.false_eq_true, if_false, hcond, if_true]
    rcases hfind : (variants.find?
        (matchPred (productAttributes variants) sel)) with _ | vr
    · refine ⟨⟨none, "", ""⟩, rfl, ?_, ?_, ?_, ?_⟩
      · constructor
        · rintro ⟨vr, hvr, hAE⟩
          exfalso
          have hnone := List.find?_eq_none.mp hfind vr hvr
          exact hnone (matchPred_of_assignmentsEq variants sel hfull hAE)
        · intro h; cases h
      · intro vr h; cases h
      · intro h; cases h
      · intro _; exact ⟨rfl, rfl⟩
    · have hP := List.find?_some hfind
      have hmem := List.mem_of_find?_eq_some hfind
      have hAE := assignmentsEq_of_matchPred variants sel huniq hwf hkeys hnd
        hfull hmem hP
      refine ⟨⟨some vr, _, _⟩, rfl, ?_, ?_, ?_, ?_⟩
      · exact ⟨fun _ => rfl, fun _ => ⟨vr, hmem, hAE⟩⟩
      · intro vr' h
        have : vr' = vr := by simpa using h.symm
        rw [this]
        exact ⟨hmem, hAE⟩
      · intro _
        exact ⟨rfl, rfl,
          chosenValueName_spec variants sel hwf hfull hmem hP⟩
      · intro h; cases h
  · rintro ⟨e, he, hcase⟩
    have hcond : (productAttributes variants).all
        (fun attr => truthy (lookupSel sel attr.id)) = false := by
      rcases hae : (productAttributes variants).all
          (fun attr => truthy (lookupSel sel attr.id)) with _ | _
      · rfl
      · exfalso
        have := List.all_eq_true.mp hae e he
        rcases hcase with h | h <;> simp [truthy, h] at this
    unfold resolveMatch
    simp only [hlen, Bool.false_eq_true, if_false, hcond]

unseal List.merge List.mergeSort in
theorem productAttributes_exCatalog_eval :
    productAttributes exCatalog =
      [⟨"color", "Color", none, 1, [⟨"red", "Red", 0⟩, ⟨"blue", "Blue", 0⟩]⟩,
       ⟨"size", "Size", none, 2, [⟨"s", "S", 0⟩, ⟨"m", "M", 0⟩]⟩] := rfl

theorem claim_C3_match_resolver_amended_witness :
    ∃ r, resolveMatch exCatalog [("color", "blue"), ("size", "s")] = some r ∧
      r.variant.isSome = true := by
  obtain ⟨hfull_part, -⟩ := claim_C3_match_resolver_amended exCatalog
    [("color", "blue"), ("size", "s")]
    (by rw [productAttributes_exCatalog_eval]; simp)
    (by decide) (by decide)
    (by rw [productAttributes_exCatalog_eval]; decide)
    (by decide)
  obtain ⟨r, hr, hiff, -, -, -⟩ :=
    hfull_part (by rw [productAttributes_exCatalog_eval]; decide)
  exact ⟨r, hr, hiff.mp ⟨exVariant "v3" 5 [exBlue, exS], by decide, by decide⟩⟩

end VariantSel
